import Mathlib

/-!
Verification of the retrieval-and-ranking and ingestion pipeline of the
IDC-Digital-Chatbot backend (`vector_db_manager.py`, `text_processor.py`).

The Python source is shallowly embedded: floats are modelled as rationals,
the external embedding model and the ChromaDB index are abstracted as
function parameters (`Except Unit` models calls that may raise), and the
collection state is an explicit `Option (List Entry)` (with `none` the
failed-initialization state).
-/

namespace IDC

/-- Python `str.split()` / `str.strip()` whitespace set (ASCII model):
space, tab, newline, carriage return, vertical tab, form feed. -/
def pyIsSpace (c : Char) : Bool :=
  c = ' ' || c = '\t' || c = '\n' || c = '\r' || c = '\x0b' || c = '\x0c'

/-- Python `\w` word-character class (ASCII model): alphanumerics and underscore. -/
def pyIsWordChar (c : Char) : Bool :=
  c.isAlphanum || c = '_'

/-- Accumulator worker for `splitRuns`: `acc` holds the (reversed) run of
`p`-characters read so far. -/
def splitRunsAux (p : Char → Bool) : List Char → List Char → List (List Char)
  | [], acc => if acc.isEmpty then [] else [acc.reverse]
  | c :: rest, acc =>
    if p c then splitRunsAux p rest (c :: acc)
    else if acc.isEmpty then splitRunsAux p rest []
    else acc.reverse :: splitRunsAux p rest []

/-- The maximal runs of characters satisfying `p`, in order.  With
`p = pyIsWordChar` this is Python's `re.findall(r'\w+', s)`; with
`p = fun c => !pyIsSpace c` it is Python's `str.split()`. -/
def splitRuns (p : Char → Bool) (l : List Char) : List (List Char) :=
  splitRunsAux p l []

/-- `re.findall(r'\w+', s.lower())` as a set of words
(Python wraps the list in `set(...)`). -/
def wordSet (s : String) : Finset String :=
  ((splitRuns pyIsWordChar (s.data.map Char.toLower)).map String.mk).toFinset

/-- `VectorDBManager.keyword_match_score` from `vector_db_manager.py`:
fraction of query words covered by the document, boosted by 1.5 and
capped at 1.0; 0.0 for an empty query word set. -/
def keyword_match_score (query doc_text : String) : ℚ :=
  let query_words := wordSet query
  let doc_words := wordSet doc_text
  if query_words = ∅ then 0
  else min ((((query_words ∩ doc_words).card : ℚ) / (query_words.card : ℚ)) * (3 / 2)) 1

/-- `C2`: `keyword_match_score(q, d)` equals
`min(1.5 * |words q ∩ words d| / |words q|, 1.0)` (with the rational
convention `x / 0 = 0` matching the guarded empty-query branch), lies in
`[0, 1]` for all inputs, and is `0` whenever the query or the document has
no word tokens. -/
theorem keyword_match_score_spec (q d : String) :
    keyword_match_score q d
      = min ((3 / 2) * ((wordSet q ∩ wordSet d).card : ℚ) / ((wordSet q).card : ℚ)) 1
    ∧ 0 ≤ keyword_match_score q d
    ∧ keyword_match_score q d ≤ 1
    ∧ (wordSet q = ∅ → keyword_match_score q d = 0)
    ∧ (wordSet d = ∅ → keyword_match_score q d = 0) := by
  have hsub : (wordSet q ∩ wordSet d).card ≤ (wordSet q).card :=
    Finset.card_le_card (Finset.inter_subset_left)
  refine ⟨?_, ?_, ?_, ?_, ?_⟩
  · by_cases hq : wordSet q = ∅
    · simp [keyword_match_score, hq]
    · have : ((3 : ℚ) / 2) * ((wordSet q ∩ wordSet d).card : ℚ) / ((wordSet q).card : ℚ)
          = (((wordSet q ∩ wordSet d).card : ℚ) / ((wordSet q).card : ℚ)) * (3 / 2) := by
        ring
      simp [keyword_match_score, hq, this]
  · by_cases hq : wordSet q = ∅
    · simp [keyword_match_score, hq]
    · have h0 : (0 : ℚ) ≤ (((wordSet q ∩ wordSet d).card : ℚ) / ((wordSet q).card : ℚ)) * (3 / 2) := by
        positivity
      simp only [keyword_match_score, hq, if_false]
      exact le_min h0 zero_le_one
  · by_cases hq : wordSet q = ∅
    · simp [keyword_match_score, hq]
    · simp only [keyword_match_score, hq, if_false]
      exact min_le_right _ _
  · intro hq; simp [keyword_match_score, hq]
  · intro hd
    by_cases hq : wordSet q = ∅
    · simp [keyword_match_score, hq]
    · simp [keyword_match_score, hq, hd]

/-- Witness for `keyword_match_score_spec` at concrete inputs: the empty
query and the empty document both score `0`. -/
theorem keyword_match_score_spec_witness :
    keyword_match_score "" "alpha" = 0 ∧ keyword_match_score "alpha" "" = 0 :=
  ⟨(keyword_match_score_spec "" "alpha").2.2.2.1 (by decide),
   (keyword_match_score_spec "alpha" "").2.2.2.2 (by decide)⟩

/-! ## Cosine similarity (`VectorDBManager.cosine_similarity`)

`np.dot(v1, v2) / (np.linalg.norm(v1) * np.linalg.norm(v2))` — an unguarded
division.  Embedding vectors are modelled over `ℚ`; since `‖v‖ = √(normSq v)`
is irrational in general, the denominator `‖v1‖ * ‖v2‖` is represented by its
square `cosineDenomSq v1 v2 = normSq v1 * normSq v2`, which is zero exactly
when the denominator is. -/

/-- `np.dot` on vectors of matching length (positional pairing). -/
def dotProd (v1 v2 : List ℚ) : ℚ :=
  (List.zipWith (· * ·) v1 v2).sum

/-- Squared L2 norm: `np.linalg.norm v ^ 2 = dotProd v v`. -/
def normSq (v : List ℚ) : ℚ :=
  dotProd v v

/-- Square of the denominator `np.linalg.norm(vec1) * np.linalg.norm(vec2)`
of `cosine_similarity`. -/
def cosineDenomSq (v1 v2 : List ℚ) : ℚ :=
  normSq v1 * normSq v2

theorem normSq_cons (x : ℚ) (v : List ℚ) : normSq (x :: v) = x * x + normSq v := by
  simp [normSq, dotProd]

theorem normSq_nonneg (v : List ℚ) : 0 ≤ normSq v := by
  induction v with
  | nil => simp [normSq, dotProd]
  | cons x v ih =>
    rw [normSq_cons]
    have : 0 ≤ x * x := mul_self_nonneg x
    linarith

theorem normSq_eq_zero_iff (v : List ℚ) : normSq v = 0 ↔ ∀ x ∈ v, x = 0 := by
  induction v with
  | nil => simp [normSq, dotProd]
  | cons x v ih =>
    rw [normSq_cons]
    constructor
    · intro h
      have hx2 : 0 ≤ x * x := mul_self_nonneg x
      have hv : 0 ≤ normSq v := normSq_nonneg v
      have hx : x * x = 0 := by linarith
      have hv0 : normSq v = 0 := by linarith
      have hx0 : x = 0 := by
        rcases mul_self_eq_zero.mp hx with h0
        exact h0
      intro y hy
      rcases List.mem_cons.mp hy with h | h
      · exact h ▸ hx0
      · exact (ih.mp hv0) y h
    · intro h
      have hx0 : x = 0 := h x (List.mem_cons_self _ _)
      have hv0 : normSq v = 0 := ih.mpr (fun y hy => h y (List.mem_cons_of_mem _ hy))
      rw [hx0, hv0]; ring

theorem normSq_nil : normSq [] = 0 := rfl

/-- `C10`: `cosine_similarity` divides by `‖v1‖ * ‖v2‖` with no guard; that
denominator vanishes exactly when one of the vectors has zero norm, i.e.
exactly when one of the input vectors is a zero vector, and the
division-by-zero case is actually reached, e.g. at `v1 = [0, 0]`. -/
theorem cosine_similarity_div_by_zero :
    (∀ v1 v2 : List ℚ, cosineDenomSq v1 v2 = 0 ↔ normSq v1 = 0 ∨ normSq v2 = 0)
    ∧ (∀ v : List ℚ, normSq v = 0 ↔ ∀ x ∈ v, x = 0)
    ∧ cosineDenomSq [0, 0] [1, 0] = 0
    ∧ cosineDenomSq [1, 0] [0, 1] ≠ 0 := by
  refine ⟨fun v1 v2 => mul_eq_zero, normSq_eq_zero_iff, ?_, ?_⟩
  · simp [cosineDenomSq, normSq_cons, normSq_nil]
  · simp [cosineDenomSq, normSq_cons, normSq_nil]

/-! ## Retrieval pipeline (`VectorDBManager.retrieve_context`)

External collaborators are parameters:
* `queryFn` models `self.collection.query(...)` for the fixed `n_results`,
  returning the candidate documents with their `source` metadata (or
  raising);
* `cosSimE q t` models
  `cosine_similarity(embedding_model.encode([q])[0], embedding_model.encode([t])[0])`
  (the encoder may raise).

The collection handle is `Option Unit` (`none` = failed initialization);
the surrounding `try/except` converts any raised error into `[]`. -/

/-- A document returned by the index query, with its `source` metadata. -/
structure Candidate where
  text : String
  source : String
deriving DecidableEq, Repr

/-- The context format of `retrieve_context`:
`f"Source: {source}\nContent: {doc_text}"`. -/
def formatContext (c : Candidate) : String :=
  "Source: " ++ c.source ++ "\nContent: " ++ c.text

/-- `final_score = (0.7 * cos_sim) + (0.3 * kw_score)`. -/
def finalScore (cos_sim kw_score : ℚ) : ℚ :=
  7 / 10 * cos_sim + 3 / 10 * kw_score

/-- One iteration of the scoring loop of `retrieve_context`: compute the
candidate's semantic score (may raise), its keyword score, and the combined
`final_score`. -/
def scoreCandidate (cosSimE : String → String → Except Unit ℚ) (query : String)
    (c : Candidate) : Except Unit (Candidate × ℚ) :=
  match cosSimE query c.text with
  | .error e => .error e
  | .ok cos_sim => .ok (c, finalScore cos_sim (keyword_match_score query c.text))

/-- The scoring loop of `retrieve_context` over `results['documents'][0]`:
the first raised error aborts the whole loop (the surrounding `try`). -/
def scoreLoop (cosSimE : String → String → Except Unit ℚ) (query : String) :
    List Candidate → Except Unit (List (Candidate × ℚ))
  | [] => .ok []
  | c :: rest =>
    match scoreCandidate cosSimE query c with
    | .error e => .error e
    | .ok p =>
      match scoreLoop cosSimE query rest with
      | .error e => .error e
      | .ok ps => .ok (p :: ps)

/-- `VectorDBManager.retrieve_context`: `None` collection short-circuits to
`[]`; the index query, the per-candidate scoring loop and the context
formatting run inside `try/except`, any raise yielding `[]`; an empty
candidate list yields `[]`.  The loop appends `formatContext` for each
candidate **in the order the index returned them** (the computed combined
scores are only printed). -/
def retrieve_context (collection : Option Unit)
    (queryFn : String → Except Unit (List Candidate))
    (cosSimE : String → String → Except Unit ℚ) (query : String) : List String :=
  match collection with
  | none => []
  | some _ =>
    match queryFn query with
    | .error _ => []
    | .ok candidates =>
      if candidates.isEmpty then []
      else
        match scoreLoop cosSimE query candidates with
        | .error _ => []
        | .ok scored => scored.map (fun p => formatContext p.1)

theorem scoreLoop_ok_mem (cosSimE : String → String → Except Unit ℚ) (query : String) :
    ∀ (l : List Candidate) (out : List (Candidate × ℚ)),
      scoreLoop cosSimE query l = .ok out →
      ∀ p ∈ out, ∃ c ∈ l, scoreCandidate cosSimE query c = .ok p := by
  intro l
  induction l with
  | nil =>
    intro out h p hp
    cases h
    simp at hp
  | cons c rest ih =>
    intro out h p hp
    rw [scoreLoop] at h
    cases hc : scoreCandidate cosSimE query c with
    | error e => rw [hc] at h; cases h
    | ok p0 =>
      rw [hc] at h
      cases hrest : scoreLoop cosSimE query rest with
      | error e => rw [hrest] at h; cases h
      | ok ps =>
        rw [hrest] at h
        cases h
        rcases List.mem_cons.mp hp with hp0 | hp0
        · exact ⟨c, List.mem_cons_self _ _, hp0 ▸ hc⟩
        · rcases ih ps hrest p hp0 with ⟨c0, hc0, hsc0⟩
          exact ⟨c0, List.mem_cons_of_mem _ hc0, hsc0⟩

/-- `C3`: every combined score computed by the scoring loop of
`retrieve_context` equals `0.7 * cos_sim + 0.3 * keyword_match_score`,
with those exact weights. -/
theorem retrieve_context_combined_score
    (cosSimE : String → String → Except Unit ℚ) (query : String)
    (candidates : List Candidate) (scored : List (Candidate × ℚ))
    (h : scoreLoop cosSimE query candidates = .ok scored) :
    ∀ p ∈ scored, ∃ cos_sim : ℚ, cosSimE query p.1.text = .ok cos_sim ∧
      p.2 = 7 / 10 * cos_sim + 3 / 10 * keyword_match_score query p.1.text := by
  intro p hp
  rcases scoreLoop_ok_mem cosSimE query candidates scored h p hp with ⟨c, _hc, hsc⟩
  cases hcos : cosSimE query c.text with
  | error e => rw [scoreCandidate, hcos] at hsc; cases hsc
  | ok cs =>
    rw [scoreCandidate, hcos] at hsc
    cases hsc
    exact ⟨cs, hcos, rfl⟩

/-- If no query word occurs in the document, the keyword score is `0`. -/
theorem keyword_match_score_inter_empty (q d : String)
    (h : wordSet q ∩ wordSet d = ∅) : keyword_match_score q d = 0 := by
  by_cases hq : wordSet q = ∅
  · simp [keyword_match_score, hq]
  · simp [keyword_match_score, hq, h]

/-- If every query word occurs in the document (full coverage), the keyword
score is `min (1.5, 1.0) = 1`. -/
theorem keyword_match_score_full (q d : String) (hq : wordSet q ≠ ∅)
    (h : wordSet q ∩ wordSet d = wordSet q) : keyword_match_score q d = 1 := by
  have hc : (0 : ℚ) < ((wordSet q).card : ℚ) := by
    exact_mod_cast Finset.card_pos.mpr (Finset.nonempty_iff_ne_empty.mpr hq)
  simp only [keyword_match_score, hq, if_false, h]
  rw [div_self (ne_of_gt hc)]
  norm_num

/-! ### Concrete instances used to evaluate the pipeline -/

def candI : Candidate := ⟨"idc", "doc1"⟩
def candA : Candidate := ⟨"beta", "s0"⟩
def candB : Candidate := ⟨"alpha", "s1"⟩
def candC : Candidate := ⟨"delta", "t0"⟩
def candD : Candidate := ⟨"gamma", "t1"⟩

def cosSimHalf : String → String → Except Unit ℚ := fun _ _ => .ok (1 / 2)
def cosSimErr : String → String → Except Unit ℚ := fun _ _ => .error ()
def cosSimAB : String → String → Except Unit ℚ :=
  fun _ t => .ok (if t = "alpha" then 1 else 0)
def cosSimCD : String → String → Except Unit ℚ :=
  fun _ t => .ok (if t = "gamma" then 1 else 0)

def queryFnErr : String → Except Unit (List Candidate) := fun _ => .error ()
def queryFnEmpty : String → Except Unit (List Candidate) := fun _ => .ok []
def queryFnOne : String → Except Unit (List Candidate) := fun _ => .ok [candI]
def queryFnAB : String → Except Unit (List Candidate) := fun _ => .ok [candA, candB]
def queryFnCD : String → Except Unit (List Candidate) := fun _ => .ok [candC, candD]

/-- Witness for `retrieve_context_combined_score` at a concrete input. -/
theorem retrieve_context_combined_score_witness :
    finalScore (1 / 2) (keyword_match_score "idc" "idc")
      = 7 / 10 * (1 / 2) + 3 / 10 * keyword_match_score "idc" "idc" := by
  have h := retrieve_context_combined_score cosSimHalf "idc" [candI]
      [(candI, finalScore (1 / 2) (keyword_match_score "idc" candI.text))] rfl
      (candI, finalScore (1 / 2) (keyword_match_score "idc" candI.text)) (by simp)
  rcases h with ⟨cs, hcs, heq⟩
  have h2 : Except.ok (ε := Unit) ((1 : ℚ) / 2) = .ok cs := hcs
  cases h2
  exact heq

/-- `C8`: `retrieve_context` never propagates a failure: an uninitialized
(`None`) collection, a raising index query, an empty candidate set, and a
raising embedding/scoring call all yield the empty context list. -/
theorem retrieve_context_error_handling :
    (∀ queryFn cosSimE q, retrieve_context none queryFn cosSimE q = [])
    ∧ (∀ queryFn cosSimE q e, queryFn q = .error e →
        retrieve_context (some ()) queryFn cosSimE q = [])
    ∧ (∀ queryFn cosSimE q, queryFn q = .ok [] →
        retrieve_context (some ()) queryFn cosSimE q = [])
    ∧ (∀ queryFn cosSimE q candidates e, queryFn q = .ok candidates →
        scoreLoop cosSimE q candidates = .error e →
        retrieve_context (some ()) queryFn cosSimE q = []) := by
  refine ⟨fun _ _ _ => rfl, ?_, ?_, ?_⟩
  · intro queryFn cosSimE q e hq
    simp [retrieve_context, hq]
  · intro queryFn cosSimE q hq
    simp [retrieve_context, hq]
  · intro queryFn cosSimE q candidates e hq hsl
    by_cases hc : candidates.isEmpty
    · simp [retrieve_context, hq, hc]
    · simp [retrieve_context, hq, hc, hsl]

/-- Witness for `retrieve_context_error_handling`: all four degraded paths
at concrete inputs. -/
theorem retrieve_context_error_handling_witness :
    retrieve_context none queryFnOne cosSimHalf "q" = []
    ∧ retrieve_context (some ()) queryFnErr cosSimHalf "q" = []
    ∧ retrieve_context (some ()) queryFnEmpty cosSimHalf "q" = []
    ∧ retrieve_context (some ()) queryFnOne cosSimErr "q" = [] :=
  ⟨retrieve_context_error_handling.1 _ _ _,
   retrieve_context_error_handling.2.1 _ _ _ () rfl,
   retrieve_context_error_handling.2.2.1 _ _ _ rfl,
   retrieve_context_error_handling.2.2.2 _ _ _ [candI] () rfl rfl⟩

/-- `C1` fails on the code: at a concrete query and candidate pair where the
second candidate's combined score (`1`) strictly exceeds the first's (`0`),
`retrieve_context` still returns the candidates in the index's original
order — the computed combined scores are only printed, never used to sort.
-/
theorem retrieve_context_not_sorted_by_score :
    retrieve_context (some ()) queryFnAB cosSimAB "alpha"
      = [formatContext candA, formatContext candB]
    ∧ scoreCandidate cosSimAB "alpha" candA = .ok (candA, 0)
    ∧ scoreCandidate cosSimAB "alpha" candB = .ok (candB, 1)
    ∧ formatContext candA ≠ formatContext candB
    ∧ (0 : ℚ) < 1 := by
  have h0 : keyword_match_score "alpha" "beta" = 0 :=
    keyword_match_score_inter_empty _ _ (by decide)
  have h1 : keyword_match_score "alpha" "alpha" = 1 :=
    keyword_match_score_full _ _ (by decide) (by decide)
  refine ⟨rfl, ?_, ?_, by decide, by norm_num⟩
  · show Except.ok (candA, finalScore 0 (keyword_match_score "alpha" "beta"))
      = .ok (candA, 0)
    rw [h0]; norm_num [finalScore]
  · show Except.ok (candB, finalScore 1 (keyword_match_score "alpha" "alpha"))
      = .ok (candB, 1)
    rw [h1]; norm_num [finalScore]

/-- `C6` fails on the code: candidate `candD` dominates `candC` in both the
semantic score (`1 ≥ 0`) and the keyword score (`1 ≥ 0`, not both equal),
yet `retrieve_context` returns `candD` at rank `1`, strictly after `candC`
at rank `0`, because the output keeps the index's original order. -/
theorem retrieve_context_not_monotone :
    retrieve_context (some ()) queryFnCD cosSimCD "gamma"
      = [formatContext candC, formatContext candD]
    ∧ cosSimCD "gamma" candD.text = .ok 1
    ∧ cosSimCD "gamma" candC.text = .ok 0
    ∧ keyword_match_score "gamma" candD.text = 1
    ∧ keyword_match_score "gamma" candC.text = 0
    ∧ List.indexOf (formatContext candD)
        [formatContext candC, formatContext candD] = 1
    ∧ List.indexOf (formatContext candC)
        [formatContext candC, formatContext candD] = 0 := by
  refine ⟨rfl, rfl, rfl, ?_, ?_, by decide, by decide⟩
  · exact keyword_match_score_full _ _ (by decide) (by decide)
  · exact keyword_match_score_inter_empty _ _ (by decide)

/-! ## Ingestion (`VectorDBManager.add_documents`)

The ChromaDB collection is modelled as its stored entries; the whole
collection handle is `Option (List Entry)` (`none` = failed
initialization, mirrored from `_get_or_create_collection` returning
`None`).  `collection.count()` is the length, `delete_collection` +
`get_or_create_collection` is replacement by `[]`, and `collection.add`
appends the positionally paired (embedding, chunk) records — ChromaDB
raises on an embeddings/ids length mismatch, which the `except` block
catches, leaving the entries unchanged. -/

/-- A text chunk handed to `add_documents` (`{"id", "text", "source"}`). -/
structure Chunk where
  id : String
  text : String
  source : String
deriving DecidableEq, Repr

/-- A stored index entry: `(id, vector, document, metadata{source})`. -/
structure Entry where
  id : String
  vector : List ℚ
  document : String
  source : String
deriving DecidableEq, Repr

/-- The records inserted by `collection.add(embeddings.tolist(), documents,
metadatas, ids)`: positional pairing of embeddings with chunks. -/
def mkEntries (embeddings : List (List ℚ)) (chunks : List Chunk) : List Entry :=
  List.zipWith (fun e c => ⟨c.id, e, c.text, c.source⟩) embeddings chunks

/-- `collection.add` inside the `try`: appends the new records, except that
a length mismatch between `embeddings` and the chunk-derived lists raises
and is caught, leaving the collection unchanged. -/
def collectionAdd (entries : List Entry) (embeddings : List (List ℚ))
    (chunks : List Chunk) : List Entry :=
  if embeddings.length = chunks.length then entries ++ mkEntries embeddings chunks
  else entries

/-- The tail of `add_documents` after the re-ingestion check: build `ids`,
`documents`, `metadatas` from the chunks and call `collection.add` when
`ids` is non-empty. -/
def addPhase (entries : List Entry) (embeddings : List (List ℚ))
    (chunks : List Chunk) : Option (List Entry) :=
  let ids := chunks.map Chunk.id
  if ids.isEmpty then some entries
  else some (collectionAdd entries embeddings chunks)

/-- `VectorDBManager.add_documents`: no-op on an uninitialized collection;
on a populated collection, return unchanged unless `force_reingestion`, in
which case delete and recreate (→ `[]`) before inserting; then insert the
chunks (if any). -/
def add_documents (collection : Option (List Entry))
    (embeddings : List (List ℚ)) (chunks : List Chunk)
    (force_reingestion : Bool) : Option (List Entry) :=
  match collection with
  | none => none
  | some entries =>
    if entries.length > 0 then
      if force_reingestion = false then some entries
      else addPhase [] embeddings chunks
    else addPhase entries embeddings chunks

/-- `C4`: on a populated collection, `add_documents` with
`force_reingestion = false` is a no-op: the stored entries (hence the
entry count) are unchanged, whatever chunks are offered. -/
theorem add_documents_idempotent (entries : List Entry)
    (embeddings : List (List ℚ)) (chunks : List Chunk)
    (h : entries ≠ []) :
    add_documents (some entries) embeddings chunks false = some entries := by
  have hlen : entries.length > 0 := List.length_pos.mpr h
  simp [add_documents, hlen]

/-- Witness for `add_documents_idempotent` at a concrete populated
collection. -/
theorem add_documents_idempotent_witness :
    add_documents (some [⟨"chunk_0", [1], "old", "s"⟩]) [[2]]
        [⟨"chunk_0", "new", "s"⟩] false
      = some [⟨"chunk_0", [1], "old", "s"⟩] :=
  add_documents_idempotent _ _ _ (by simp)

/-- `C5`: on a populated collection, `add_documents` with
`force_reingestion = true` and a non-empty chunk list (with its matching
embeddings) replaces the contents: afterwards the collection holds exactly
the `chunks.length` freshly built entries, every one of which comes from
the new chunk list. -/
theorem add_documents_replaces (entries : List Entry)
    (embeddings : List (List ℚ)) (chunks : List Chunk)
    (hpop : entries ≠ []) (hch : chunks ≠ [])
    (hlen : embeddings.length = chunks.length) :
    add_documents (some entries) embeddings chunks true
      = some (mkEntries embeddings chunks)
    ∧ (mkEntries embeddings chunks).length = chunks.length
    ∧ ∀ e ∈ mkEntries embeddings chunks, ∃ c ∈ chunks,
        e.id = c.id ∧ e.document = c.text ∧ e.source = c.source := by
  have hpop' : entries.length > 0 := List.length_pos.mpr hpop
  have hch' : ¬ (chunks.map Chunk.id).isEmpty := by
    simp [List.isEmpty_iff, hch]
  refine ⟨?_, ?_, ?_⟩
  · simp [add_documents, hpop', addPhase, hch', collectionAdd, hlen]
  · simp [mkEntries, hlen]
  · intro e he
    rw [mkEntries] at he
    rcases List.mem_iff_get.mp he with ⟨i, hi⟩
    rw [List.get_eq_getElem, List.getElem_zipWith] at hi
    refine ⟨chunks.get ⟨i, ?_⟩, List.get_mem _ _ _, ?_⟩
    · have := i.isLt
      simp only [List.length_zipWith, hlen, min_self] at this
      exact this
    · rw [← hi]
      exact ⟨rfl, rfl, rfl⟩

/-- Witness for `add_documents_replaces`: one old entry replaced by one new
chunk. -/
theorem add_documents_replaces_witness :
    add_documents (some [⟨"chunk_0", [1], "old", "s"⟩]) [[2]]
        [⟨"chunk_0", "new", "s"⟩] true
      = some (mkEntries [[2]] [⟨"chunk_0", "new", "s"⟩])
    ∧ (mkEntries [[2]] [⟨"chunk_0", "new", "s"⟩]).length
        = ([⟨"chunk_0", "new", "s"⟩] : List Chunk).length
    ∧ ∀ e ∈ mkEntries [[2]] [⟨"chunk_0", "new", "s"⟩],
        ∃ c ∈ ([⟨"chunk_0", "new", "s"⟩] : List Chunk),
          e.id = c.id ∧ e.document = c.text ∧ e.source = c.source :=
  add_documents_replaces _ _ _ (by simp) (by simp) (by simp)

/-- `C9`: on a populated collection, `add_documents` with
`force_reingestion = true` and an empty chunk list drops and recreates the
collection before looking at the chunks, then inserts nothing: the old
entries are destroyed and the collection is left empty, not unchanged. -/
theorem add_documents_force_empty_chunks (entries : List Entry)
    (embeddings : List (List ℚ)) (h : entries ≠ []) :
    add_documents (some entries) embeddings [] true = some [] := by
  have hlen : entries.length > 0 := List.length_pos.mpr h
  simp [add_documents, hlen, addPhase]

/-- Witness for `add_documents_force_empty_chunks`. -/
theorem add_documents_force_empty_chunks_witness :
    add_documents (some [⟨"chunk_0", [1], "old", "s"⟩]) [] [] true = some [] :=
  add_documents_force_empty_chunks _ _ (by simp)

/-! ## Chunking (`text_processor.chunk_text`)

`chunk_text` normalizes each document's text with
`" ".join(doc["text"].split()).strip()`, skips documents whose normalized
text is empty, splits the rest with the (external)
`RecursiveCharacterTextSplitter` — abstracted as a `split` parameter — and
tags each produced piece with a running `chunk_{i}` id and the parent
document's `source`. -/

/-- A token character for `str.split()`: any non-whitespace character. -/
def wsTokenChar (c : Char) : Bool := !pyIsSpace c

/-- Python `str.split()` (no separator): the maximal non-whitespace runs. -/
def pySplitWs (l : List Char) : List (List Char) := splitRuns wsTokenChar l

/-- Python `sep.join(tokens)`. -/
def pyJoin (sep : List Char) : List (List Char) → List Char
  | [] => []
  | [t] => t
  | t :: t2 :: ts => t ++ sep ++ pyJoin sep (t2 :: ts)

/-- Remove trailing whitespace. -/
def stripEnd (l : List Char) : List Char :=
  (l.reverse.dropWhile pyIsSpace).reverse

/-- Python `str.strip()`: remove leading and trailing whitespace. -/
def pyStrip (l : List Char) : List Char :=
  stripEnd (l.dropWhile pyIsSpace)

/-- `cleaned_text = " ".join(doc["text"].split()).strip()` from
`chunk_text`. -/
def cleanText (s : String) : String :=
  String.mk (pyStrip (pyJoin [' '] (pySplitWs s.data)))

/-- The spec's description of the normalization, stated independently of
the source expression: collapse every whitespace run to a single space
(emitted at the end of the run), then trim both ends. -/
def collapseRuns : List Char → List Char
  | [] => []
  | [c] => if pyIsSpace c then [' '] else [c]
  | c :: d :: rest =>
    if pyIsSpace c then
      if pyIsSpace d then collapseRuns (d :: rest)
      else ' ' :: collapseRuns (d :: rest)
    else c :: collapseRuns (d :: rest)

/-- Spec-side normalization: collapse whitespace runs and trim the ends. -/
def specNormalize (s : String) : String :=
  String.mk (pyStrip (collapseRuns s.data))

/-! ### Splitter structure lemmas -/

theorem dropWhile_head_false (p : Char → Bool) :
    ∀ (l : List Char) (c : Char) (t : List Char),
      l.dropWhile p = c :: t → p c = false := by
  intro l
  induction l with
  | nil => intro c t h; cases h
  | cons a l ih =>
    intro c t h
    by_cases ha : p a
    · rw [List.dropWhile_cons, if_pos ha] at h
      exact ih c t h
    · rw [List.dropWhile_cons, if_neg ha] at h
      cases h
      simpa using ha

theorem splitRuns_cons_neg (p : Char → Bool) (c : Char) (l : List Char)
    (hc : p c = false) : splitRuns p (c :: l) = splitRuns p l := by
  simp [splitRuns, splitRunsAux, hc]

theorem splitRunsAux_token (p : Char → Bool) :
    ∀ (tok : List Char), (∀ c ∈ tok, p c = true) →
    ∀ (l acc : List Char),
      splitRunsAux p (tok ++ l) acc = splitRunsAux p l (tok.reverse ++ acc) := by
  intro tok
  induction tok with
  | nil => intro _ l acc; simp
  | cons c tok ih =>
    intro hp l acc
    have hc : p c = true := hp c (List.mem_cons_self _ _)
    have hrec := ih (fun x hx => hp x (List.mem_cons_of_mem _ hx)) l (c :: acc)
    have h1 : splitRunsAux p ((c :: tok) ++ l) acc = splitRunsAux p (tok ++ l) (c :: acc) := by
      simp [splitRunsAux, hc]
    rw [h1, hrec]
    congr 1
    simp

theorem splitRunsAux_flush (p : Char → Bool) (l acc : List Char) (hacc : acc ≠ [])
    (hl : l = [] ∨ ∃ c t, l = c :: t ∧ p c = false) :
    splitRunsAux p l acc = acc.reverse :: splitRuns p l := by
  have hacc' : acc.isEmpty = false := by
    cases acc with
    | nil => exact absurd rfl hacc
    | cons a t => rfl
  rcases hl with rfl | ⟨c, t, rfl, hc⟩
  · simp [splitRunsAux, splitRuns, hacc']
  · simp [splitRunsAux, splitRuns, hacc', hc]

theorem splitRuns_cons_pos (p : Char → Bool) (c : Char) (l : List Char)
    (hc : p c = true) :
    splitRuns p (c :: l)
      = (c :: l).takeWhile p :: splitRuns p ((c :: l).dropWhile p) := by
  have htok : ∀ x ∈ (c :: l).takeWhile p, p x = true :=
    fun x hx => List.mem_takeWhile_imp hx
  have hsplit : (c :: l).takeWhile p ++ (c :: l).dropWhile p = c :: l :=
    List.takeWhile_append_dropWhile p _
  have hne : (c :: l).takeWhile p ≠ [] := by
    rw [List.takeWhile_cons, if_pos hc]
    exact List.cons_ne_nil _ _
  have hnerev : ((c :: l).takeWhile p).reverse ≠ [] := by
    simpa [List.reverse_eq_nil_iff] using hne
  have hdrop : (c :: l).dropWhile p = []
      ∨ ∃ d t, (c :: l).dropWhile p = d :: t ∧ p d = false := by
    cases hd : (c :: l).dropWhile p with
    | nil => exact Or.inl rfl
    | cons d t => exact Or.inr ⟨d, t, rfl, dropWhile_head_false p _ d t hd⟩
  conv_lhs => rw [splitRuns, ← hsplit]
  rw [splitRunsAux_token p _ htok, List.append_nil,
    splitRunsAux_flush p _ _ hnerev hdrop, List.reverse_reverse]

theorem pySplitWs_dropWhile (l : List Char) :
    pySplitWs (l.dropWhile pyIsSpace) = pySplitWs l := by
  induction l with
  | nil => rfl
  | cons c t ih =>
    by_cases hc : pyIsSpace c
    · have h1 : pySplitWs (c :: t) = pySplitWs t := by
        rw [pySplitWs, pySplitWs, splitRuns_cons_neg wsTokenChar c t (by simp [wsTokenChar, hc])]
      rw [List.dropWhile_cons, if_pos hc, ih, h1]
    · rw [List.dropWhile_cons, if_neg hc]

/-! ### Strip and collapse lemmas -/

theorem dropWhile_pyIsSpace_idem (l : List Char) :
    (l.dropWhile pyIsSpace).dropWhile pyIsSpace = l.dropWhile pyIsSpace := by
  induction l with
  | nil => rfl
  | cons c t ih =>
    by_cases hc : pyIsSpace c
    · rw [List.dropWhile_cons, if_pos hc, ih]
    · rw [List.dropWhile_cons, if_neg hc, List.dropWhile_cons, if_neg hc]

theorem stripEnd_idem (l : List Char) : stripEnd (stripEnd l) = stripEnd l := by
  unfold stripEnd
  rw [List.reverse_reverse, dropWhile_pyIsSpace_idem]

theorem stripEnd_append (a b : List Char) :
    stripEnd (a ++ b)
      = if stripEnd b = [] then stripEnd a else a ++ stripEnd b := by
  unfold stripEnd
  rw [List.reverse_append, List.dropWhile_append]
  by_cases hb : (b.reverse.dropWhile pyIsSpace).isEmpty
  · have hb' : b.reverse.dropWhile pyIsSpace = [] := by
      simpa [List.isEmpty_iff] using hb
    simp [hb, hb']
  · have hb' : b.reverse.dropWhile pyIsSpace ≠ [] := by
      simpa [List.isEmpty_iff] using hb
    have hb'' : (b.reverse.dropWhile pyIsSpace).reverse ≠ [] := by
      simpa [List.reverse_eq_nil_iff] using hb'
    simp [hb, hb'', List.reverse_append]

theorem stripEnd_ne_of_head (d : Char) (t : List Char)
    (hd : pyIsSpace d = false) : stripEnd (d :: t) ≠ [] := by
  intro h
  unfold stripEnd at h
  rw [List.reverse_eq_nil_iff, List.dropWhile_eq_nil_iff] at h
  have := h d (List.mem_reverse.mpr (List.mem_cons_self _ _))
  rw [hd] at this
  cases this

theorem stripEnd_token (tok : List Char) (hp : ∀ c ∈ tok, pyIsSpace c = false) :
    stripEnd tok = tok := by
  unfold stripEnd
  have : tok.reverse.dropWhile pyIsSpace = tok.reverse := by
    cases h : tok.reverse with
    | nil => simp
    | cons c t =>
      have hc : pyIsSpace c = false := by
        refine hp c ?_
        rw [← List.mem_reverse, h]
        exact List.mem_cons_self _ _
      rw [← h, h, List.dropWhile_cons, if_neg (by simp [hc])]
  rw [this, List.reverse_reverse]

theorem stripEnd_single_space : stripEnd [' '] = [] := rfl

theorem collapseRuns_cons_nonspace (c : Char) (l : List Char)
    (hc : pyIsSpace c = false) : collapseRuns (c :: l) = c :: collapseRuns l := by
  cases l with
  | nil => simp [collapseRuns, hc]
  | cons d t => simp [collapseRuns, hc]

theorem collapseRuns_cons_space :
    ∀ (l : List Char) (c : Char), pyIsSpace c = true →
      collapseRuns (c :: l)
        = if l.dropWhile pyIsSpace = [] then [' ']
          else ' ' :: collapseRuns (l.dropWhile pyIsSpace) := by
  intro l
  induction l with
  | nil => intro c hc; simp [collapseRuns, hc]
  | cons d t ih =>
    intro c hc
    by_cases hd : pyIsSpace d
    · have h1 : collapseRuns (c :: d :: t) = collapseRuns (d :: t) := by
        simp [collapseRuns, hc, hd]
      rw [h1, ih d hd, List.dropWhile_cons, if_pos hd]
    · have h1 : collapseRuns (c :: d :: t) = ' ' :: collapseRuns (d :: t) := by
        simp [collapseRuns, hc, hd]
      rw [h1, List.dropWhile_cons, if_neg hd,
        if_neg (List.cons_ne_nil d t)]

theorem collapseRuns_token_append (tok l : List Char)
    (hp : ∀ c ∈ tok, pyIsSpace c = false) :
    collapseRuns (tok ++ l) = tok ++ collapseRuns l := by
  induction tok with
  | nil => simp
  | cons c t ih =>
    rw [List.cons_append,
      collapseRuns_cons_nonspace c _ (hp c (List.mem_cons_self _ _)),
      ih (fun x hx => hp x (List.mem_cons_of_mem _ hx)), List.cons_append]

/-- Core equivalence, on inputs with no leading whitespace: joining the
whitespace-split tokens with single spaces equals collapsing whitespace
runs and trimming the end. -/
theorem join_split_eq_stripEnd_collapse :
    ∀ (n : Nat) (l : List Char), l.length ≤ n →
      (l = [] ∨ ∃ c t, l = c :: t ∧ pyIsSpace c = false) →
      pyJoin [' '] (pySplitWs l) = stripEnd (collapseRuns l) := by
  intro n
  induction n with
  | zero =>
    intro l hl _
    have hnil : l = [] := List.eq_nil_of_length_eq_zero (Nat.le_zero.mp hl)
    subst hnil; rfl
  | succ n ih =>
    intro l hl hhead
    rcases hhead with rfl | ⟨c, t, rfl, hc⟩
    · rfl
    · have hctok : wsTokenChar c = true := by simp [wsTokenChar, hc]
      set tok := (c :: t).takeWhile wsTokenChar with htokdef
      set rem := (c :: t).dropWhile wsTokenChar with hremdef
      have hsplit1 : pySplitWs (c :: t) = tok :: pySplitWs rem :=
        splitRuns_cons_pos wsTokenChar c t hctok
      have htokp : ∀ x ∈ tok, pyIsSpace x = false := by
        intro x hx
        have := List.mem_takeWhile_imp (htokdef ▸ hx)
        simpa [wsTokenChar] using this
      have happ : tok ++ rem = c :: t := List.takeWhile_append_dropWhile _ _
      have hcol : collapseRuns (c :: t) = tok ++ collapseRuns rem := by
        rw [← happ, collapseRuns_token_append tok rem htokp]
      have hremhead : rem = [] ∨ ∃ s r, rem = s :: r ∧ pyIsSpace s = true := by
        cases hr : rem with
        | nil => exact Or.inl rfl
        | cons s r =>
          refine Or.inr ⟨s, r, rfl, ?_⟩
          have := dropWhile_head_false wsTokenChar (c :: t) s r (by rw [← hremdef]; exact hr)
          simpa [wsTokenChar] using this
      have hremlen : rem.length ≤ t.length := by
        have h1 : rem = t.dropWhile wsTokenChar := by
          rw [hremdef, List.dropWhile_cons, if_pos hctok]
        rw [h1]
        exact (List.dropWhile_suffix wsTokenChar).length_le
      cases hdq : rem.dropWhile pyIsSpace with
      | nil =>
        have hsplitrem : pySplitWs rem = [] := by
          rw [← pySplitWs_dropWhile rem, hdq]; rfl
        have hLHS : pyJoin [' '] (pySplitWs (c :: t)) = tok := by
          rw [hsplit1, hsplitrem]; rfl
        rw [hLHS, hcol]
        rcases hremhead with hrnil | ⟨s, r, hrcons, hs⟩
        · rw [hrnil]
          rw [show collapseRuns ([] : List Char) = [] from rfl, List.append_nil]
          exact (stripEnd_token tok htokp).symm
        · have hdqr : r.dropWhile pyIsSpace = [] := by
            have h2 : rem.dropWhile pyIsSpace = r.dropWhile pyIsSpace := by
              rw [hrcons, List.dropWhile_cons, if_pos hs]
            rw [← h2, hdq]
          rw [hrcons, collapseRuns_cons_space r s hs, if_pos hdqr]
          rw [stripEnd_append tok [' '], if_pos stripEnd_single_space]
          exact (stripEnd_token tok htokp).symm
      | cons d r2 =>
        have hd : pyIsSpace d = false := dropWhile_head_false pyIsSpace rem d r2 hdq
        rcases hremhead with hrnil | ⟨s, r, hrcons, hs⟩
        · rw [hrnil] at hdq; simp at hdq
        have hdqr : r.dropWhile pyIsSpace = d :: r2 := by
          have h2 : rem.dropWhile pyIsSpace = r.dropWhile pyIsSpace := by
            rw [hrcons, List.dropWhile_cons, if_pos hs]
          rw [← h2, hdq]
        have hlen2 : (d :: r2).length ≤ n := by
          have h1 : (d :: r2).length ≤ r.length := by
            rw [← hdqr]; exact (List.dropWhile_suffix pyIsSpace).length_le
          have h2 : r.length < rem.length := by rw [hrcons]; simp
          have h3 : rem.length ≤ t.length := hremlen
          have h4 : t.length ≤ n := by
            have h5 : (c :: t).length ≤ n + 1 := hl
            simpa using h5
          omega
        have hihr := ih (d :: r2) hlen2 (Or.inr ⟨d, r2, rfl, hd⟩)
        have hsplitrem : pySplitWs rem = pySplitWs (d :: r2) := by
          rw [← pySplitWs_dropWhile rem, hdq]
        have hdtok : wsTokenChar d = true := by simp [wsTokenChar, hd]
        obtain ⟨x, xs, hxs⟩ : ∃ x xs, pySplitWs (d :: r2) = x :: xs :=
          ⟨_, _, splitRuns_cons_pos wsTokenChar d r2 hdtok⟩
        have hLHS : pyJoin [' '] (pySplitWs (c :: t))
            = tok ++ [' '] ++ pyJoin [' '] (pySplitWs (d :: r2)) := by
          rw [hsplit1, hsplitrem, hxs]
          rfl
        have hcolrem : collapseRuns rem = ' ' :: collapseRuns (d :: r2) := by
          rw [hrcons, collapseRuns_cons_space r s hs,
            if_neg (by rw [hdqr]; exact List.cons_ne_nil _ _), hdqr]
        have hyne : stripEnd (collapseRuns (d :: r2)) ≠ [] := by
          rw [collapseRuns_cons_nonspace d r2 hd]
          exact stripEnd_ne_of_head d _ hd
        have hinner : stripEnd ([' '] ++ collapseRuns (d :: r2))
            = [' '] ++ stripEnd (collapseRuns (d :: r2)) := by
          rw [stripEnd_append, if_neg hyne]
        have hRHS : stripEnd (collapseRuns (c :: t))
            = tok ++ [' '] ++ stripEnd (collapseRuns (d :: r2)) := by
          rw [hcol, hcolrem,
            show (' ' :: collapseRuns (d :: r2)) = [' '] ++ collapseRuns (d :: r2) from rfl,
            stripEnd_append tok ([' '] ++ collapseRuns (d :: r2)), hinner,
            if_neg (by simp)]
          simp [List.append_assoc]
        rw [hLHS, hRHS, hihr]

theorem pyStrip_of_head_nonspace (d : Char) (t : List Char)
    (hd : pyIsSpace d = false) : pyStrip (d :: t) = stripEnd (d :: t) := by
  unfold pyStrip
  rw [List.dropWhile_cons, if_neg (by simp [hd])]

theorem pyStrip_space_cons (y : List Char) : pyStrip (' ' :: y) = pyStrip y := by
  unfold pyStrip
  rw [List.dropWhile_cons, if_pos (by decide)]

theorem pyJoin_cons_head (tok : List Char) (xs : List (List Char)) :
    ∃ rest, pyJoin [' '] (tok :: xs) = tok ++ rest := by
  cases xs with
  | nil => exact ⟨[], by simp [pyJoin]⟩
  | cons x xs => exact ⟨[' '] ++ pyJoin [' '] (x :: xs), by simp [pyJoin]⟩

/-- The normalization expression of `chunk_text` agrees with the spec's
collapse-and-trim description, at the character-list level. -/
theorem cleanText_spec_aux (l : List Char) :
    pyStrip (pyJoin [' '] (pySplitWs l)) = pyStrip (collapseRuns l) := by
  cases hdq : l.dropWhile pyIsSpace with
  | nil =>
    have hs : pySplitWs l = [] := by rw [← pySplitWs_dropWhile l, hdq]; rfl
    rw [hs]
    show pyStrip [] = pyStrip (collapseRuns l)
    cases l with
    | nil => rfl
    | cons c t =>
      have hc : pyIsSpace c = true := by
        by_contra hcf
        rw [List.dropWhile_cons, if_neg hcf] at hdq
        cases hdq
      have hdqt : t.dropWhile pyIsSpace = [] := by
        rw [List.dropWhile_cons, if_pos hc] at hdq; exact hdq
      rw [collapseRuns_cons_space t c hc, if_pos hdqt]
      rfl
  | cons d r =>
    have hd : pyIsSpace d = false := dropWhile_head_false pyIsSpace l d r hdq
    have hK := join_split_eq_stripEnd_collapse (d :: r).length (d :: r) le_rfl
      (Or.inr ⟨d, r, rfl, hd⟩)
    have hsplit : pySplitWs l = pySplitWs (d :: r) := by
      rw [← pySplitWs_dropWhile l, hdq]
    have hdtok : wsTokenChar d = true := by simp [wsTokenChar, hd]
    have hstok : pySplitWs (d :: r)
        = (d :: r).takeWhile wsTokenChar :: pySplitWs ((d :: r).dropWhile wsTokenChar) :=
      splitRuns_cons_pos wsTokenChar d r hdtok
    obtain ⟨rest, hrest⟩ := pyJoin_cons_head ((d :: r).takeWhile wsTokenChar)
      (pySplitWs ((d :: r).dropWhile wsTokenChar))
    have htke : (d :: r).takeWhile wsTokenChar = d :: r.takeWhile wsTokenChar := by
      rw [List.takeWhile_cons, if_pos hdtok]
    have hjoinhead : pyJoin [' '] (pySplitWs (d :: r))
        = d :: (r.takeWhile wsTokenChar ++ rest) := by
      rw [hstok, hrest, htke]; simp
    have hLHS : pyStrip (pyJoin [' '] (pySplitWs l))
        = stripEnd (pyJoin [' '] (pySplitWs (d :: r))) := by
      rw [hsplit, hjoinhead, pyStrip_of_head_nonspace d _ hd]
    rw [hLHS, hK, stripEnd_idem]
    cases l with
    | nil => simp at hdq
    | cons c t =>
      by_cases hc : pyIsSpace c
      · have hdqt : t.dropWhile pyIsSpace = d :: r := by
          rw [List.dropWhile_cons, if_pos hc] at hdq; exact hdq
        rw [collapseRuns_cons_space t c hc,
          if_neg (by rw [hdqt]; exact List.cons_ne_nil _ _), hdqt,
          pyStrip_space_cons, collapseRuns_cons_nonspace d r hd,
          pyStrip_of_head_nonspace d _ hd]
      · have hc' : pyIsSpace c = false := by simpa using hc
        rw [List.dropWhile_cons, if_neg hc] at hdq
        injection hdq with h1 h2
        subst h1
        subst h2
        rw [collapseRuns_cons_nonspace c t hc', pyStrip_of_head_nonspace c _ hc']

/-- `" ".join(s.split()).strip()` collapses every whitespace run to a
single space and trims both ends. -/
theorem cleanText_eq_specNormalize (s : String) : cleanText s = specNormalize s :=
  congrArg String.mk (cleanText_spec_aux s.data)

/-- An input document: `{"text": ..., "source": ...}`. -/
structure Document where
  text : String
  source : String
deriving DecidableEq, Repr

/-- The inner loop of `chunk_text`: wrap each split piece as a chunk with
the running id `chunk_{chunk_id_counter}` and the parent's source. -/
def mkChunks : Nat → String → List String → List Chunk
  | _, _, [] => []
  | ctr, src, piece :: rest =>
    ⟨"chunk_" ++ toString ctr, piece, src⟩ :: mkChunks (ctr + 1) src rest

/-- The document loop of `chunk_text`, carrying `chunk_id_counter`:
normalize, skip if the normalized text is empty, otherwise split (the
external `RecursiveCharacterTextSplitter.split_text` is the `split`
parameter) and emit the chunks. -/
def chunkTextAux (split : String → List String) :
    List Document → Nat → List Chunk
  | [], _ => []
  | doc :: rest, ctr =>
    if cleanText doc.text = "" then chunkTextAux split rest ctr
    else mkChunks ctr doc.source (split (cleanText doc.text))
      ++ chunkTextAux split rest (ctr + (split (cleanText doc.text)).length)

/-- `text_processor.chunk_text` with the splitter abstracted. -/
def chunk_text (split : String → List String) (documents : List Document) :
    List Chunk :=
  chunkTextAux split documents 0

theorem mkChunks_mem :
    ∀ (pieces : List String) (ctr : Nat) (src : String) (c : Chunk),
      c ∈ mkChunks ctr src pieces → c.text ∈ pieces ∧ c.source = src := by
  intro pieces
  induction pieces with
  | nil => intro ctr src c h; simp [mkChunks] at h
  | cons p rest ih =>
    intro ctr src c h
    rw [mkChunks] at h
    rcases List.mem_cons.mp h with rfl | h2
    · exact ⟨List.mem_cons_self _ _, rfl⟩
    · rcases ih (ctr + 1) src c h2 with ⟨h3, h4⟩
      exact ⟨List.mem_cons_of_mem _ h3, h4⟩

theorem chunkTextAux_mem (split : String → List String) :
    ∀ (docs : List Document) (ctr : Nat) (c : Chunk),
      c ∈ chunkTextAux split docs ctr →
      ∃ d ∈ docs, cleanText d.text ≠ "" ∧ c.source = d.source
        ∧ c.text ∈ split (cleanText d.text) := by
  intro docs
  induction docs with
  | nil => intro ctr c h; simp [chunkTextAux] at h
  | cons doc rest ih =>
    intro ctr c h
    rw [chunkTextAux] at h
    by_cases hcl : cleanText doc.text = ""
    · rw [if_pos hcl] at h
      rcases ih ctr c h with ⟨d, hd, h3⟩
      exact ⟨d, List.mem_cons_of_mem _ hd, h3⟩
    · rw [if_neg hcl] at h
      rcases List.mem_append.mp h with h1 | h2
      · rcases mkChunks_mem _ _ _ _ h1 with ⟨ht, hs⟩
        exact ⟨doc, List.mem_cons_self _ _, hcl, hs, ht⟩
      · rcases ih _ c h2 with ⟨d, hd, h3⟩
        exact ⟨d, List.mem_cons_of_mem _ hd, h3⟩

theorem chunkTextAux_all_empty (split : String → List String) :
    ∀ (docs : List Document) (ctr : Nat),
      (∀ d ∈ docs, cleanText d.text = "") → chunkTextAux split docs ctr = [] := by
  intro docs
  induction docs with
  | nil => intro ctr _; rfl
  | cons doc rest ih =>
    intro ctr hall
    rw [chunkTextAux, if_pos (hall doc (List.mem_cons_self _ _))]
    exact ih ctr (fun d hd => hall d (List.mem_cons_of_mem _ hd))

/-- `C7`: `chunk_text` normalizes each document's text by collapsing every
whitespace run to a single space and trimming both ends
(`cleanText = specNormalize`); every produced chunk stems from a document
whose normalized text is non-empty (documents with empty normalized text
are skipped without error and yield no chunk), its text is one of the
splitter's pieces of that normalized text, and it inherits that document's
source; a document list that normalizes to all-empty yields no chunks at
all. -/
theorem chunk_text_spec :
    (∀ s, cleanText s = specNormalize s)
    ∧ (∀ (split : String → List String) (documents : List Document) (c : Chunk),
        c ∈ chunk_text split documents →
        ∃ d ∈ documents, cleanText d.text ≠ "" ∧ c.source = d.source
          ∧ c.text ∈ split (cleanText d.text))
    ∧ (∀ (split : String → List String) (documents : List Document),
        (∀ d ∈ documents, cleanText d.text = "") →
        chunk_text split documents = []) :=
  ⟨cleanText_eq_specNormalize,
   fun split documents c h => chunkTextAux_mem split documents 0 c h,
   fun split documents h => chunkTextAux_all_empty split documents 0 h⟩

/-- Witness for `chunk_text_spec` at concrete inputs: a two-word document
is normalized by collapsing/trimming; the single chunk produced from
`" idc "` inherits the source and the normalized text; an
all-whitespace document yields no chunks. -/
theorem chunk_text_spec_witness :
    cleanText "  a   b " = specNormalize "  a   b "
    ∧ (∃ d ∈ [({ text := " idc ", source := "s1" } : Document)],
        cleanText d.text ≠ ""
        ∧ ({ id := "chunk_0", text := "idc", source := "s1" } : Chunk).source = d.source
        ∧ ({ id := "chunk_0", text := "idc", source := "s1" } : Chunk).text
            ∈ (fun s => [s]) (cleanText d.text))
    ∧ chunk_text (fun s => [s]) [{ text := " ", source := "s2" }] = [] := by
  refine ⟨chunk_text_spec.1 _,
    chunk_text_spec.2.1 (fun s => [s]) _ _ ?_,
    chunk_text_spec.2.2 (fun s => [s]) _ ?_⟩
  · decide
  · intro d hd
    rcases List.mem_singleton.mp hd with rfl
    decide

end IDC
